import Mathlib

/-!
Shallow embedding of `rdt/transformers/categorical.py`: the
`CategoricalTransformer` (frequency-to-interval encoder) and the
`OneHotTransformer`.  Numeric values are modelled exactly with `ℚ`
(the Python code uses floats; the spec's arithmetic is exact), data
columns are modelled as ordered lists, and the Python dict holding the
fitted intervals is modelled as an association list in insertion order
(Python dicts preserve insertion order).
-/

namespace RDT

/-- A categorical value: the null sentinel (pandas `NaN`, which
`value_counts(dropna=False)` treats as one more category) or an ordinary
category.  Category labels are modelled as single characters, standing in
for the hashable domain values of the source. -/
inductive Cat : Type
  | null : Cat
  | chr : Char → Cat
deriving DecidableEq, Repr

/-- The fixed total order on category values used to break frequency ties
deterministically in `_get_intervals` (`sort_values([name, 'index'],
ascending=False)`).  The null sentinel sorts below every ordinary label,
matching pandas' placement of `NaN` after all values in a descending sort. -/
def Cat.le : Cat → Cat → Prop
  | .null, _ => True
  | .chr _, .null => False
  | .chr a, .chr b => a ≤ b

instance : DecidableRel Cat.le
  | .null, _ => isTrue trivial
  | .chr _, .null => isFalse id
  | .chr a, .chr b => inferInstanceAs (Decidable (a ≤ b))

instance : IsTotal Cat Cat.le :=
  ⟨fun a b => by
    cases a <;> cases b <;> simp [Cat.le]
    exact le_total _ _⟩

instance : IsTrans Cat Cat.le :=
  ⟨fun a b c hab hbc => by
    cases a <;> cases b <;> cases c <;> simp_all [Cat.le]
    exact le_trans hab hbc⟩

theorem Cat.le_asymm {a b : Cat} (hab : Cat.le a b) (hba : Cat.le b a) : a = b := by
  cases a <;> cases b <;> simp_all [Cat.le]
  exact le_antisymm hab hba

/-- One interval of the learned partition.  The source stores the tuple
`(start, end, mean, std)`; `end` is a reserved word in Lean, so the second
component is named `stop`. -/
structure Interval : Type where
  start : ℚ
  stop : ℚ
  mean : ℚ
  std : ℚ
deriving DecidableEq, Repr

/-- The fitted `self.intervals` dict: category to interval, in insertion
order. -/
abbrev IntervalMapping : Type := List (Cat × Interval)

/-- Number of occurrences of a category in the fit data
(`data.value_counts(dropna=False)` for one value). -/
def countOf (data : List Cat) (c : Cat) : Nat :=
  data.count c

/-- The sort relation of `_get_intervals`: by count descending, ties broken
by the category value itself, descending
(`sort_values([name, 'index'], ascending=False)`). -/
def freqRel (p q : Cat × Nat) : Prop :=
  q.2 < p.2 ∨ (p.2 = q.2 ∧ Cat.le q.1 p.1)

instance : DecidableRel freqRel := fun p q =>
  inferInstanceAs (Decidable (_ ∨ _))

instance : IsTotal (Cat × Nat) freqRel :=
  ⟨fun p q => by
    rcases lt_trichotomy p.2 q.2 with h | h | h
    · exact Or.inr (Or.inl h)
    · rcases total_of Cat.le p.1 q.1 with hc | hc
      · exact Or.inr (Or.inr ⟨h.symm, hc⟩)
      · exact Or.inl (Or.inr ⟨h, hc⟩)
    · exact Or.inl (Or.inl h)⟩

instance : IsTrans (Cat × Nat) freqRel :=
  ⟨fun p q r hpq hqr => by
    rcases hpq with h1 | ⟨e1, c1⟩ <;> rcases hqr with h2 | ⟨e2, c2⟩
    · exact Or.inl (h2.trans h1)
    · exact Or.inl (e2 ▸ h1)
    · exact Or.inl (e1 ▸ h2)
    · exact Or.inr ⟨e1.trans e2, Trans.trans c2 c1⟩⟩

/-- The distinct categories of the fit data, each with its count, sorted by
count descending with ties broken by the category value descending: the
`frequencies` series of `_get_intervals` after
`sort_values([name, 'index'], ascending=False)`.  (The source first calls
`value_counts`, sorted by count only, then re-sorts with the tie-break;
the composite is one deterministic sort by the pair, modelled here
directly.) -/
def sortedFreqs (data : List Cat) : List (Cat × Nat) :=
  List.insertionSort freqRel (data.dedup.map (fun c => (c, countOf data c)))

/-- The interval-building loop of `_get_intervals`: walk the sorted
frequency list with a cursor `start`, assigning each category the interval
`(start, start + prob, midpoint, prob / 6)` where `prob = count / total`. -/
def buildIntervals (total : Nat) : List (Cat × Nat) → ℚ → IntervalMapping
  | [], _ => []
  | (c, f) :: rest, start =>
    let prob : ℚ := (f : ℚ) / (total : ℚ)
    let e : ℚ := start + prob
    (c, ⟨start, e, (start + e) / 2, prob / 6⟩) :: buildIntervals total rest e

/-- The function `CategoricalTransformer._get_intervals`. -/
def get_intervals (data : List Cat) : IntervalMapping :=
  buildIntervals data.length (sortedFreqs data) 0

/-- Python exceptions that the modelled paths can raise: the `KeyError` of
a `self.intervals[category]` lookup for a category that was never fitted. -/
inductive PyErr : Type
  | keyError : Cat → PyErr
deriving DecidableEq, Repr

/-- Python `==` between a category value (a string or `None`/`NaN` label)
and the interval 4-tuple: always `False`, since values of these types
never compare equal to a tuple. -/
def pyTupleEq (_ : Cat) (_ : Interval) : Bool :=
  false

/-- pandas comparison of an object-dtype `Series` against a tuple, as in
`data == category` of the two-category shortcut (where `category` is the
interval 4-tuple `(start, end, mean, std)`): pandas deliberately treats a
tuple as scalar-like in Series comparisons (it is not caught by the
array-length check), so each element is compared against the whole tuple
and the result has the input's length for any input; `.astype(int)` then
turns the booleans into `0`/`1`. -/
def seriesEqTuple (data : List Cat) (tup : Interval) : List ℚ :=
  data.map (fun v => if pyTupleEq v tup then 1 else 0)

/-- The method `CategoricalTransformer._get_value` with `add_noise=False`: the
interval's `mean` (`norm.rvs`, the noisy branch, is external random
sampling and is not modelled).  A category absent from the fitted dict
raises `KeyError`. -/
def _get_value (l : IntervalMapping) (c : Cat) : Except PyErr ℚ :=
  match l.find? (fun p => p.1 == c) with
  | some p => Except.ok p.2.mean
  | none => Except.error (PyErr.keyError c)

/-- The method `CategoricalTransformer.transform` with anonymization disabled and
`add_noise=False`.  If the fitted dict has exactly two entries it takes the
shortcut `(data == list(self.intervals.values())[0]).astype(int)` —
comparing every data value against the first interval's 4-tuple, which is
scalar-like for pandas and never equal, so the result is all zeros — and
otherwise it
maps `_get_value` over the data (`data.fillna(np.nan).apply(...)`; null is
itself a key of the fitted dict, so the `fillna` is the identity here). -/
def transform (l : IntervalMapping) (data : List Cat) : Except PyErr (List ℚ) :=
  if l.length = 2 then
    Except.ok (seriesEqTuple data
      (match l with
       | p :: _ => p.2
       | [] => ⟨0, 0, 0, 0⟩))
  else
    data.mapM (_get_value l)

/-- Python `data.astype(int)` on one float: truncation toward zero. -/
def pyTrunc (v : ℚ) : ℤ :=
  if 0 ≤ v then ⌊v⌋ else ⌈v⌉

/-- The method `CategoricalTransformer._normalize` on one value: with `clip`, clamp
into `[0, 1]` (`data.clip(0, 1)`); otherwise subtract the integer part
(`data - data.astype(int)`) and flip the sign of negative results
(`data[data < 0] = -data[data < 0]`). -/
def _normalize (clip : Bool) (v : ℚ) : ℚ :=
  if clip then
    min 1 (max 0 v)
  else
    let d : ℚ := v - (pyTrunc v : ℚ)
    if d < 0 then -d else d

/-- The interval-matching loop of `reverse_transform` for one normalized
value: `result[(start < data) & (data < end)] = category` over the fitted
dict in order, starting from a missing entry; the last matching interval
wins. -/
def findCategory (l : IntervalMapping) (v : ℚ) : Option Cat :=
  l.foldl (fun acc p => if p.2.start < v ∧ v < p.2.stop then some p.1 else acc) none

/-- The method `CategoricalTransformer.reverse_transform`: normalize each value, then
assign it the category of the interval strictly containing it.  A value
matching no interval stays the missing value `NaN`, which is the same
datum as the null category, so the output is a plain list of `Cat` with
`Cat.null` for misses. -/
def reverse_transform (clip : Bool) (l : IntervalMapping) (data : List ℚ) : List Cat :=
  data.map (fun v => (findCategory l (_normalize clip v)).getD Cat.null)

/-- The sort relation of `OneHotTransformer.fit`: count descending only
(`data.value_counts()`); ties keep first-occurrence order via sort
stability. -/
def countRel (data : List Cat) (a b : Cat) : Prop :=
  countOf data b ≤ countOf data a

instance (data : List Cat) : DecidableRel (countRel data) := fun a b =>
  inferInstanceAs (Decidable (_ ≤ _))

instance (data : List Cat) : IsTotal Cat (countRel data) :=
  ⟨fun a b => le_total _ _⟩

instance (data : List Cat) : IsTrans Cat (countRel data) :=
  ⟨fun _ _ _ h1 h2 => le_trans h2 h1⟩

/-- The method `OneHotTransformer.fit`: `self.dummies = pd.Series(data.value_counts().index)`
— the distinct non-null categories (`value_counts` drops `NaN` by default),
in descending count order. -/
def oneHotDummies (data : List Cat) : List Cat :=
  List.insertionSort (countRel data) ((data.filter (fun c => decide (c ≠ Cat.null))).dedup)

/-- The method `OneHotTransformer.transform`:
`pd.get_dummies(data).reindex(columns=self.dummies, fill_value=0)` — one
row per value, one column per fit-time dummy, `1` exactly where the value
equals that column's category (a `NaN` row gets no dummy column, hence all
zeros; a column for an unseen value is dropped by the reindex). -/
def oneHotTransform (dummies : List Cat) (data : List Cat) : List (List ℚ) :=
  data.map (fun v => dummies.map (fun d => if v = d then (1 : ℚ) else 0))

/-- Python `np.argmax` over one row: the lowest index attaining the maximum. -/
def argmaxIdx : List ℚ → Nat
  | [] => 0
  | [_] => 0
  | x :: y :: rest =>
    let j := argmaxIdx (y :: rest)
    if x < (y :: rest).getD j 0 then j + 1 else 0

/-- The method `OneHotTransformer.reverse_transform`:
`pd.Series(np.argmax(data, axis=1)).map(self.dummies)` — per row, the
category at the argmax column (an out-of-range position maps to `NaN`,
i.e. the null value). -/
def oneHotReverse (dummies : List Cat) (rows : List (List ℚ)) : List Cat :=
  rows.map (fun r => (dummies[argmaxIdx r]?).getD Cat.null)

/-- A contiguous chain of nonempty intervals walking from `s` to `e`: the
head starts at `s`, each interval ends where the next starts, and the walk
ends at `e`. -/
def chainFromTo (s e : ℚ) : IntervalMapping → Prop
  | [] => s = e
  | p :: rest => p.2.start = s ∧ s < p.2.stop ∧ chainFromTo p.2.stop e rest

theorem chainFromTo_le : ∀ (l : IntervalMapping) (s e : ℚ), chainFromTo s e l → s ≤ e
  | [], _, _, h => le_of_eq h
  | _ :: rest, _, _, h =>
    le_trans (le_of_lt h.2.1) (chainFromTo_le rest _ _ h.2.2)

theorem chainFromTo_of_eq {s e e' : ℚ} {l : IntervalMapping}
    (h : chainFromTo s e l) (he : e = e') : chainFromTo s e' l :=
  he ▸ h

theorem buildIntervals_chain :
    ∀ (freqs : List (Cat × Nat)) (total : Nat) (s : ℚ), 0 < total →
      (∀ p ∈ freqs, 0 < p.2) →
      chainFromTo s (s + (freqs.map (fun p => (p.2 : ℚ))).sum / (total : ℚ))
        (buildIntervals total freqs s)
  | [], total, s, _, _ => by
    simp [chainFromTo, buildIntervals]
  | (c, f) :: rest, total, s, htotal, hpos => by
    have hf : 0 < f := hpos (c, f) (List.mem_cons_self _ _)
    have hdiv : (0 : ℚ) < (f : ℚ) / (total : ℚ) := by
      apply div_pos
      · exact_mod_cast hf
      · exact_mod_cast htotal
    refine ⟨rfl, by linarith, ?_⟩
    have ih := buildIntervals_chain rest total (s + (f : ℚ) / (total : ℚ)) htotal
      (fun p hp => hpos p (List.mem_cons_of_mem _ hp))
    refine chainFromTo_of_eq ih ?_
    show s + (f : ℚ) / (total : ℚ) + (rest.map (fun p => (p.2 : ℚ))).sum / (total : ℚ) = _
    rw [List.map_cons, List.sum_cons, add_div]
    ring

theorem chainFromTo_mem_bounds :
    ∀ (l : IntervalMapping) (s e : ℚ), chainFromTo s e l →
      ∀ p ∈ l, s ≤ p.2.start ∧ p.2.start < p.2.stop ∧ p.2.stop ≤ e
  | q :: rest, s, e, h, p, hp => by
    obtain ⟨hqs, hlt, hrest⟩ := h
    rcases List.mem_cons.mp hp with heq | hmem
    · subst heq
      exact ⟨le_of_eq hqs.symm, hqs ▸ hlt, chainFromTo_le rest _ _ hrest⟩
    · obtain ⟨h1, h2, h3⟩ := chainFromTo_mem_bounds rest _ _ hrest p hmem
      exact ⟨le_trans (le_of_lt (hqs ▸ hlt)) h1, h2, h3⟩

theorem chainFromTo_chain' :
    ∀ (l : IntervalMapping) (s e : ℚ), chainFromTo s e l →
      List.Chain' (fun p q : Cat × Interval => p.2.stop = q.2.start) l
  | [], _, _, _ => List.chain'_nil
  | [_], _, _, _ => List.chain'_singleton _
  | q :: r :: rest, s, e, h => by
    obtain ⟨_, _, hrest⟩ := h
    exact List.Chain'.cons hrest.1.symm (chainFromTo_chain' (r :: rest) _ _ hrest)

theorem chainFromTo_sum :
    ∀ (l : IntervalMapping) (s e : ℚ), chainFromTo s e l →
      (l.map (fun p => p.2.stop - p.2.start)).sum = e - s
  | [], s, e, h => by simp [chainFromTo] at h; simp [h]
  | q :: rest, s, e, h => by
    obtain ⟨hqs, _, hrest⟩ := h
    rw [List.map_cons, List.sum_cons, chainFromTo_sum rest _ _ hrest, hqs]
    ring

theorem sortedFreqs_perm (data : List Cat) :
    List.Perm (sortedFreqs data) (data.dedup.map (fun c => (c, countOf data c))) :=
  List.perm_insertionSort _ _

theorem mem_sortedFreqs {data : List Cat} {p : Cat × Nat} (hp : p ∈ sortedFreqs data) :
    p.1 ∈ data ∧ p.2 = countOf data p.1 ∧ 0 < p.2 := by
  have hmem := (sortedFreqs_perm data).mem_iff.mp hp
  obtain ⟨c, hc, hpc⟩ := List.mem_map.mp hmem
  have hcd : c ∈ data := List.mem_dedup.mp hc
  subst hpc
  refine ⟨hcd, rfl, ?_⟩
  simpa [countOf, List.count_pos_iff] using hcd

theorem sortedFreqs_sum (data : List Cat) :
    ((sortedFreqs data).map (fun p => (p.2 : ℚ))).sum = (data.length : ℚ) := by
  have hperm : List.Perm ((sortedFreqs data).map (fun p => (p.2 : ℚ)))
      ((data.dedup.map (fun c => (c, countOf data c))).map (fun p => (p.2 : ℚ))) :=
    (sortedFreqs_perm data).map _
  rw [hperm.sum_eq, List.map_map]
  show (data.dedup.map (fun c => ((countOf data c : ℚ)))).sum = (data.length : ℚ)
  have h2 : data.dedup.map (fun c => ((countOf data c : ℚ))) =
      (data.dedup.map (fun c => countOf data c)).map (Nat.cast : ℕ → ℚ) := by
    rw [List.map_map]
    rfl
  rw [h2, ← Nat.cast_list_sum]
  norm_cast
  simpa [countOf] using List.sum_map_count_dedup_eq_length data

theorem buildIntervals_cons (total : Nat) (c : Cat) (f : Nat)
    (rest : List (Cat × Nat)) (s : ℚ) :
    buildIntervals total ((c, f) :: rest) s =
      (c, ⟨s, s + (f : ℚ) / (total : ℚ),
           (s + (s + (f : ℚ) / (total : ℚ))) / 2, (f : ℚ) / (total : ℚ) / 6⟩) ::
        buildIntervals total rest (s + (f : ℚ) / (total : ℚ)) :=
  rfl

theorem buildIntervals_keys :
    ∀ (freqs : List (Cat × Nat)) (total : Nat) (s : ℚ),
      (buildIntervals total freqs s).map Prod.fst = freqs.map Prod.fst
  | [], _, _ => rfl
  | (c, f) :: rest, total, s => by
    simp [buildIntervals, buildIntervals_keys rest total]

theorem buildIntervals_length :
    ∀ (freqs : List (Cat × Nat)) (total : Nat) (s : ℚ),
      (buildIntervals total freqs s).length = freqs.length
  | [], _, _ => rfl
  | (c, f) :: rest, total, s => by
    simp [buildIntervals, buildIntervals_length rest total]

theorem buildIntervals_mem :
    ∀ (freqs : List (Cat × Nat)) (total : Nat) (s : ℚ) (c : Cat) (f : Nat),
      (c, f) ∈ freqs → ∃ iv, (c, iv) ∈ buildIntervals total freqs s
  | (c', f') :: rest, total, s, c, f, hmem => by
    rw [buildIntervals_cons]
    rcases List.mem_cons.mp hmem with heq | hmem'
    · have hc : c = c' := congrArg Prod.fst heq
      subst hc
      exact ⟨_, List.mem_cons_self _ _⟩
    · obtain ⟨iv, hiv⟩ := buildIntervals_mem rest total
        (s + (f' : ℚ) / (total : ℚ)) c f hmem'
      exact ⟨iv, List.mem_cons_of_mem _ hiv⟩

theorem buildIntervals_shape :
    ∀ (freqs : List (Cat × Nat)) (total : Nat) (s : ℚ) (p : Cat × Interval),
      p ∈ buildIntervals total freqs s →
      p.2.mean = (p.2.start + p.2.stop) / 2 ∧ p.2.std = (p.2.stop - p.2.start) / 6
  | (c', f') :: rest, total, s, p, hp => by
    rcases List.mem_cons.mp hp with heq | hmem
    · subst heq
      constructor
      · rfl
      · show (f' : ℚ) / (total : ℚ) / 6 = (s + (f' : ℚ) / (total : ℚ) - s) / 6
        ring
    · exact buildIntervals_shape rest total _ p hmem

theorem get_intervals_chain {data : List Cat} (h : data ≠ []) :
    chainFromTo 0 1 (get_intervals data) := by
  have hlen : 0 < data.length := List.length_pos.mpr h
  have hchain := buildIntervals_chain (sortedFreqs data) data.length 0 hlen
    (fun p hp => (mem_sortedFreqs hp).2.2)
  refine chainFromTo_of_eq hchain ?_
  rw [sortedFreqs_sum]
  have : (data.length : ℚ) ≠ 0 := by exact_mod_cast Nat.pos_iff_ne_zero.mp hlen
  field_simp

theorem get_intervals_keys (data : List Cat) :
    (get_intervals data).map Prod.fst = (sortedFreqs data).map Prod.fst :=
  buildIntervals_keys _ _ _

theorem get_intervals_keys_nodup (data : List Cat) :
    ((get_intervals data).map Prod.fst).Nodup := by
  rw [get_intervals_keys]
  have hperm : List.Perm ((sortedFreqs data).map Prod.fst)
      ((data.dedup.map (fun c => (c, countOf data c))).map Prod.fst) :=
    (sortedFreqs_perm data).map _
  have hmap : (data.dedup.map (fun c => (c, countOf data c))).map Prod.fst
      = data.dedup := by
    rw [List.map_map]
    exact List.map_id' data.dedup
  rw [hperm.nodup_iff, hmap]
  exact data.nodup_dedup

theorem mem_get_intervals {data : List Cat} {c : Cat} (hc : c ∈ data) :
    ∃ iv, (c, iv) ∈ get_intervals data := by
  have h1 : (c, countOf data c) ∈ data.dedup.map (fun c => (c, countOf data c)) :=
    List.mem_map.mpr ⟨c, List.mem_dedup.mpr hc, rfl⟩
  have h2 : (c, countOf data c) ∈ sortedFreqs data :=
    (sortedFreqs_perm data).mem_iff.mpr h1
  exact buildIntervals_mem _ _ _ _ _ h2

theorem get_intervals_mem_data {data : List Cat} {p : Cat × Interval}
    (hp : p ∈ get_intervals data) : p.1 ∈ data := by
  have h1 : p.1 ∈ (get_intervals data).map Prod.fst := List.mem_map.mpr ⟨p, hp, rfl⟩
  rw [get_intervals_keys] at h1
  obtain ⟨q, hq, hq1⟩ := List.mem_map.mp h1
  exact hq1 ▸ (mem_sortedFreqs hq).1

theorem get_intervals_shape {data : List Cat} {p : Cat × Interval}
    (hp : p ∈ get_intervals data) :
    p.2.mean = (p.2.start + p.2.stop) / 2 ∧ p.2.std = (p.2.stop - p.2.start) / 6 :=
  buildIntervals_shape _ _ _ _ hp

theorem foldl_findCategory_const (v : ℚ) :
    ∀ (l : IntervalMapping) (acc : Option Cat),
      (∀ p ∈ l, ¬(p.2.start < v ∧ v < p.2.stop)) →
      l.foldl (fun acc p => if p.2.start < v ∧ v < p.2.stop then some p.1 else acc) acc
        = acc
  | [], _, _ => rfl
  | q :: rest, acc, h => by
    rw [List.foldl_cons, if_neg (h q (List.mem_cons_self _ _))]
    exact foldl_findCategory_const v rest acc
      (fun p hp => h p (List.mem_cons_of_mem _ hp))

theorem findCategory_none {l : IntervalMapping} {v : ℚ}
    (h : ∀ p ∈ l, ¬(p.2.start < v ∧ v < p.2.stop)) : findCategory l v = none :=
  foldl_findCategory_const v l none h

theorem chain_no_match_of_le {l : IntervalMapping} {s e v : ℚ}
    (hchain : chainFromTo s e l) (hv : v ≤ s) :
    ∀ p ∈ l, ¬(p.2.start < v ∧ v < p.2.stop) := by
  intro p hp hmatch
  have hb := (chainFromTo_mem_bounds l s e hchain p hp).1
  linarith [hmatch.1]

theorem findCategory_some {v : ℚ} :
    ∀ (l : IntervalMapping) (s e : ℚ) (c : Cat) (iv : Interval),
      chainFromTo s e l → (c, iv) ∈ l → iv.start < v → v < iv.stop →
      findCategory l v = some c
  | q :: rest, s, e, c, iv, hchain, hmem, hlo, hhi => by
    obtain ⟨hqs, hqlt, hrest⟩ := hchain
    rcases List.mem_cons.mp hmem with heq | hmem'
    · rw [← heq] at hqs hqlt hrest
      rw [← heq]
      have hstep : findCategory ((c, iv) :: rest) v
          = List.foldl
              (fun acc p => if p.2.start < v ∧ v < p.2.stop then some p.1 else acc)
              (if iv.start < v ∧ v < iv.stop then some c else none) rest := rfl
      rw [hstep, if_pos ⟨hlo, hhi⟩]
      exact foldl_findCategory_const v rest (some c)
        (chain_no_match_of_le hrest (le_of_lt hhi))
    · have hge : q.2.stop ≤ iv.start :=
        (chainFromTo_mem_bounds rest _ _ hrest (c, iv) hmem').1
      have hstep : findCategory (q :: rest) v
          = List.foldl
              (fun acc p => if p.2.start < v ∧ v < p.2.stop then some p.1 else acc)
              (if q.2.start < v ∧ v < q.2.stop then some q.1 else none) rest := rfl
      rw [hstep,
        if_neg (fun hmatch => absurd hmatch.2 (not_lt.mpr (le_trans hge (le_of_lt hlo))))]
      exact findCategory_some rest _ _ c iv hrest hmem' hlo hhi

theorem chain_boundary_no_match {v : ℚ} :
    ∀ (l : IntervalMapping) (s e : ℚ), chainFromTo s e l →
      (∃ q ∈ l, v = q.2.start ∨ v = q.2.stop) →
      ∀ p ∈ l, ¬(p.2.start < v ∧ v < p.2.stop)
  | q0 :: rest, s, e, hchain, ⟨q, hq, hqv⟩, p, hp => by
    obtain ⟨hq0s, hq0lt, hrest⟩ := hchain
    rcases List.mem_cons.mp hq with hqeq | hqmem
    · subst hqeq
      have hvle : v ≤ q.2.stop := by
        rcases hqv with h | h
        · rw [h, hq0s]
          exact le_of_lt hq0lt
        · exact le_of_eq h
      rcases List.mem_cons.mp hp with hpeq | hpmem
      · subst hpeq
        intro hmatch
        rcases hqv with h | h
        · exact absurd hmatch.1 (not_lt.mpr (le_of_eq h))
        · exact absurd hmatch.2 (not_lt.mpr (le_of_eq h.symm))
      · exact chain_no_match_of_le hrest hvle p hpmem
    · have hvge : q0.2.stop ≤ v := by
        have hb := chainFromTo_mem_bounds rest _ _ hrest q hqmem
        rcases hqv with h | h
        · rw [h]
          exact hb.1
        · rw [h]
          exact le_trans hb.1 (le_of_lt hb.2.1)
      rcases List.mem_cons.mp hp with hpeq | hpmem
      · subst hpeq
        intro hmatch
        exact absurd hmatch.2 (not_lt.mpr hvge)
      · exact chain_boundary_no_match rest _ _ hrest ⟨q, hqmem, hqv⟩ p hpmem

theorem find?_eq_some_of_mem_of_nodup :
    ∀ (l : IntervalMapping) (c : Cat) (iv : Interval),
      (l.map Prod.fst).Nodup → (c, iv) ∈ l →
      l.find? (fun p => p.1 == c) = some (c, iv)
  | q :: rest, c, iv, hnodup, hmem => by
    rw [List.map_cons, List.nodup_cons] at hnodup
    rcases List.mem_cons.mp hmem with heq | hmem'
    · subst heq
      simp [List.find?_cons]
    · have hbe : (q.1 == c) = false := by
        simp only [beq_eq_false_iff_ne, ne_eq]
        intro h
        exact hnodup.1 (h ▸ List.mem_map.mpr ⟨(c, iv), hmem', rfl⟩)
      simp only [List.find?_cons, hbe]
      exact find?_eq_some_of_mem_of_nodup rest c iv hnodup.2 hmem'

theorem pyTrunc_eq_zero {v : ℚ} (h0 : 0 ≤ v) (h1 : v < 1) : pyTrunc v = 0 := by
  have ht : pyTrunc v = ⌊v⌋ := if_pos h0
  rw [ht]
  exact Int.floor_eq_zero_iff.mpr ⟨h0, h1⟩

theorem _normalize_true_eq (v : ℚ) : _normalize true v = min 1 (max 0 v) :=
  rfl

theorem _normalize_false_eq (v : ℚ) :
    _normalize false v =
      if v - (pyTrunc v : ℚ) < 0 then -(v - (pyTrunc v : ℚ)) else v - (pyTrunc v : ℚ) :=
  rfl

theorem _normalize_bounds (clip : Bool) (v : ℚ) :
    0 ≤ _normalize clip v ∧ _normalize clip v ≤ 1 := by
  cases clip with
  | true =>
    rw [_normalize_true_eq]
    constructor
    · exact le_min zero_le_one (le_max_left 0 v)
    · exact min_le_left 1 _
  | false =>
    have hd1 : v - (pyTrunc v : ℚ) < 1 := by
      rw [pyTrunc]
      rcases le_or_lt 0 v with h0 | h0
      · rw [if_pos h0]
        linarith [Int.lt_floor_add_one v]
      · rw [if_neg (not_le.mpr h0)]
        linarith [Int.le_ceil v]
    have hd2 : (-1 : ℚ) < v - (pyTrunc v : ℚ) := by
      rw [pyTrunc]
      rcases le_or_lt 0 v with h0 | h0
      · rw [if_pos h0]
        linarith [Int.floor_le v]
      · rw [if_neg (not_le.mpr h0)]
        linarith [Int.ceil_lt_add_one v]
    rw [_normalize_false_eq]
    by_cases hneg : v - (pyTrunc v : ℚ) < 0
    · rw [if_pos hneg]
      constructor <;> linarith
    · rw [if_neg hneg]
      constructor <;> linarith [not_lt.mp hneg]

theorem _normalize_id {clip : Bool} {v : ℚ} (h0 : 0 ≤ v) (h1 : v < 1) :
    _normalize clip v = v := by
  cases clip with
  | true =>
    rw [_normalize_true_eq, max_eq_right h0, min_eq_right (le_of_lt h1)]
  | false =>
    rw [_normalize_false_eq, pyTrunc_eq_zero h0 h1]
    simp only [Int.cast_zero, sub_zero]
    rw [if_neg (not_lt.mpr h0)]

theorem argmaxIdx_spec :
    ∀ (r : List ℚ), r ≠ [] →
      argmaxIdx r < r.length ∧
      (∀ j, j < r.length → r.getD j 0 ≤ r.getD (argmaxIdx r) 0) ∧
      (∀ j, j < argmaxIdx r → r.getD j 0 < r.getD (argmaxIdx r) 0)
  | [x], _ => by
    refine ⟨by simp [argmaxIdx], ?_, ?_⟩
    · intro j hj
      have hj0 : j = 0 := by
        simpa using Nat.lt_one_iff.mp (by simpa using hj)
      subst hj0
      simp [argmaxIdx]
    · intro j hj
      simp [argmaxIdx] at hj
  | x :: y :: rest, _ => by
    obtain ⟨ih1, ih2, ih3⟩ := argmaxIdx_spec (y :: rest) (by simp)
    have hunf : argmaxIdx (x :: y :: rest) =
        if x < (y :: rest).getD (argmaxIdx (y :: rest)) 0 then
          argmaxIdx (y :: rest) + 1
        else 0 := rfl
    by_cases hc : x < (y :: rest).getD (argmaxIdx (y :: rest)) 0
    · rw [hunf, if_pos hc]
      refine ⟨by simpa using Nat.succ_lt_succ ih1, ?_, ?_⟩
      · intro j hj
        cases j with
        | zero => simpa using le_of_lt hc
        | succ j' =>
          have hj' : j' < (y :: rest).length := by simpa using hj
          simpa using ih2 j' hj'
      · intro j hj
        cases j with
        | zero => simpa using hc
        | succ j' =>
          have hj' : j' < argmaxIdx (y :: rest) := by omega
          simpa using ih3 j' hj'
    · rw [hunf, if_neg hc]
      have hxge : (y :: rest).getD (argmaxIdx (y :: rest)) 0 ≤ x := not_lt.mp hc
      refine ⟨by simp, ?_, ?_⟩
      · intro j hj
        cases j with
        | zero => simp
        | succ j' =>
          have hj' : j' < (y :: rest).length := by simpa using hj
          have hle := ih2 j' hj'
          simpa using le_trans hle hxge
      · intro j hj
        exact absurd hj (Nat.not_lt_zero j)

theorem oneHotDummies_perm (data : List Cat) :
    List.Perm (oneHotDummies data) ((data.filter (fun c => decide (c ≠ Cat.null))).dedup) :=
  List.perm_insertionSort _ _

theorem null_not_mem_oneHotDummies (data : List Cat) :
    Cat.null ∉ oneHotDummies data := by
  intro h
  have h2 := (oneHotDummies_perm data).mem_iff.mp h
  have h3 := List.mem_dedup.mp h2
  have h4 := (List.mem_filter.mp h3).2
  simp at h4

theorem oneHotTransform_unseen {data : List Cat} {c : Cat}
    (hc : c ∉ oneHotDummies data) :
    oneHotTransform (oneHotDummies data) [c]
      = [List.replicate (oneHotDummies data).length 0] := by
  show [(oneHotDummies data).map (fun d => if c = d then (1 : ℚ) else 0)] = _
  congr 1
  have hz : ∀ d ∈ oneHotDummies data, (if c = d then (1 : ℚ) else 0) = 0 := by
    intro d hd
    rw [if_neg]
    intro h
    exact hc (h ▸ hd)
  rw [List.map_congr_left hz, List.map_const']

theorem oneHot_roundtrip {data : List Cat} {c : Cat} (hc : c ∈ oneHotDummies data) :
    oneHotReverse (oneHotDummies data) (oneHotTransform (oneHotDummies data) [c])
      = [c] := by
  obtain ⟨k, hk, hDk⟩ := List.getElem_of_mem hc
  have hrlen : ((oneHotDummies data).map (fun d => if c = d then (1 : ℚ) else 0)).length
      = (oneHotDummies data).length := by simp
  have hrne : (oneHotDummies data).map (fun d => if c = d then (1 : ℚ) else 0) ≠ [] := by
    intro h
    rw [h] at hrlen
    simp at hrlen
    omega
  obtain ⟨hi1, hi2, hi3⟩ := argmaxIdx_spec _ hrne
  have hiD : argmaxIdx ((oneHotDummies data).map (fun d => if c = d then (1 : ℚ) else 0))
      < (oneHotDummies data).length := hrlen ▸ hi1
  have hgetr : ∀ j, (hj : j < (oneHotDummies data).length) →
      ((oneHotDummies data).map (fun d => if c = d then (1 : ℚ) else 0)).getD j 0
        = if c = (oneHotDummies data)[j] then (1 : ℚ) else 0 := by
    intro j hj
    rw [List.getD_eq_getElem?_getD, List.getElem?_eq_getElem (by simpa using hj),
      Option.getD_some, List.getElem_map]
  have hk1 : ((oneHotDummies data).map (fun d => if c = d then (1 : ℚ) else 0)).getD k 0
      = 1 := by
    rw [hgetr k hk, if_pos hDk.symm]
  have hmax : (1 : ℚ) ≤
      ((oneHotDummies data).map (fun d => if c = d then (1 : ℚ) else 0)).getD
        (argmaxIdx ((oneHotDummies data).map (fun d => if c = d then (1 : ℚ) else 0))) 0 :=
    le_of_eq_of_le hk1.symm (hi2 k (hrlen ▸ hk))
  have hDi : (oneHotDummies data).get
      ⟨argmaxIdx ((oneHotDummies data).map (fun d => if c = d then (1 : ℚ) else 0)),
       hiD⟩ = c := by
    by_contra hne
    rw [hgetr _ hiD, if_neg (fun h => hne h.symm)] at hmax
    norm_num at hmax
  show [((oneHotDummies data)[argmaxIdx
      ((oneHotDummies data).map (fun d => if c = d then (1 : ℚ) else 0))]?).getD Cat.null]
    = [c]
  rw [List.getElem?_eq_getElem hiD, Option.getD_some]
  exact congrArg (fun x => [x]) hDi

/-- The fitted intervals are listed in the frequency sort order: count
descending, ties by the category value descending. -/
theorem get_intervals_sorted (data : List Cat) :
    List.Pairwise
      (fun p q : Cat × Interval =>
        countOf data q.1 < countOf data p.1 ∨
          (countOf data q.1 = countOf data p.1 ∧ Cat.le q.1 p.1 ∧ q.1 ≠ p.1))
      (get_intervals data) := by
  have hsorted : List.Pairwise freqRel (sortedFreqs data) :=
    List.sorted_insertionSort freqRel _
  have hnodup : ((sortedFreqs data).map Prod.fst).Nodup := by
    have hgi := get_intervals_keys_nodup data
    rwa [get_intervals_keys] at hgi
  have hne : List.Pairwise (fun p q : Cat × Nat => p.1 ≠ q.1) (sortedFreqs data) :=
    List.pairwise_map.mp hnodup
  have hstr : List.Pairwise
      (fun p q : Cat × Nat =>
        countOf data q.1 < countOf data p.1 ∨
          (countOf data q.1 = countOf data p.1 ∧ Cat.le q.1 p.1 ∧ q.1 ≠ p.1))
      (sortedFreqs data) := by
    refine (hsorted.and hne).imp_of_mem ?_
    intro p q hp hq h
    obtain ⟨hfr, hne2⟩ := h
    have hcp := (mem_sortedFreqs hp).2.1
    have hcq := (mem_sortedFreqs hq).2.1
    rcases hfr with hlt | ⟨heq, hle⟩
    · left
      rw [← hcp, ← hcq]
      exact hlt
    · right
      refine ⟨?_, hle, fun h2 => hne2 h2.symm⟩
      rw [← hcp, ← hcq]
      exact heq.symm
  have hK : List.Pairwise
      (fun c d : Cat =>
        countOf data d < countOf data c ∨
          (countOf data d = countOf data c ∧ Cat.le d c ∧ d ≠ c))
      ((sortedFreqs data).map Prod.fst) :=
    List.pairwise_map.mpr hstr
  rw [← get_intervals_keys] at hK
  exact List.pairwise_map.mp hK

/-- Elementwise, the shortcut comparison of category values against the
interval tuple is everywhere false. -/
theorem seriesEqTuple_zeros (data : List Cat) (tup : Interval) :
    seriesEqTuple data tup = data.map (fun _ => (0 : ℚ)) :=
  List.map_congr_left (fun _ _ => rfl)

/-- With exactly two fitted categories, `transform` compares the data
against the first interval's 4-tuple, which never equals any category
value, so it returns a zero for every input value, whatever the input
length. -/
theorem transform_two_categories_zeros {l : IntervalMapping} {data : List Cat}
    (hlen : l.length = 2) :
    transform l data = Except.ok (data.map (fun _ => (0 : ℚ))) := by
  rw [transform.eq_def, if_pos hlen]
  cases l with
  | nil => simp at hlen
  | cons p rest =>
    show Except.ok (seriesEqTuple data p.2) = _
    rw [seriesEqTuple_zeros]

/-- The matcher `findCategory` misses the left endpoint of the whole chain. -/
theorem findCategory_chain_start {l : IntervalMapping} {s e : ℚ}
    (hchain : chainFromTo s e l) : findCategory l s = none :=
  findCategory_none (chain_no_match_of_le hchain (le_refl s))

/-- Sample fit data of the concrete scenario in the spec. -/
def aaab : List Cat :=
  [Cat.chr 'a', Cat.chr 'a', Cat.chr 'a', Cat.chr 'b']

/-- Sample fit data with two categories and no frequency tie. -/
def bba : List Cat :=
  [Cat.chr 'b', Cat.chr 'b', Cat.chr 'a']

/-- Sample fit data with three categories. -/
def aabc : List Cat :=
  [Cat.chr 'a', Cat.chr 'a', Cat.chr 'b', Cat.chr 'c']

/-- Concrete evaluation of `_get_intervals` on `aaab`. -/
theorem get_intervals_aaab :
    get_intervals aaab =
      [(Cat.chr 'a', ⟨0, 3/4, 3/8, 1/8⟩), (Cat.chr 'b', ⟨3/4, 1, 7/8, 1/24⟩)] := by
  have h : sortedFreqs aaab = [(Cat.chr 'a', 3), (Cat.chr 'b', 1)] := by decide
  have hl : aaab.length = 4 := by decide
  have ha : countOf aaab (Cat.chr 'a') = 3 := by decide
  have hb : countOf aaab (Cat.chr 'b') = 1 := by decide
  simp [get_intervals, h, hl, ha, hb, buildIntervals]
  norm_num

/-- Membership of the first fitted interval of `aaab`. -/
theorem aaab_mem_a :
    (Cat.chr 'a', (⟨0, 3/4, 3/8, 1/8⟩ : Interval)) ∈ get_intervals aaab := by
  rw [get_intervals_aaab]
  exact List.mem_cons_self _ _

/-- C1 (counterexample): fitting on `["a","a","a","b"]` leaves exactly two
categories, so `transform(["a","b"])` takes the two-category shortcut and
returns `[0, 0]`, not `[0.375, 0.875]` as the claim states. -/
theorem C1_scenario_counterexample :
    ¬ (transform (get_intervals aaab) [Cat.chr 'a', Cat.chr 'b']
        = Except.ok [3/8, 7/8]) := by
  rw [transform_two_categories_zeros (by decide)]
  simp only [List.map_cons, List.map_nil]
  intro hcontra
  have h2 := Except.ok.inj hcontra
  norm_num at h2

/-- C1 (amended): fitting on `["a","a","a","b"]` produces exactly the
intervals `a=(0, 0.75, 0.375, 0.125)` and `b=(0.75, 1.0, 0.875, 0.25/6)`,
and `reverse_transform([0.375, 0.875])` returns `["a","b"]`; but
`transform(["a","b"])` hits the two-category shortcut, whose comparison of
each value against the first interval's 4-tuple is always false, so it
returns `[0, 0]` rather than `[0.375, 0.875]`. -/
theorem C1_scenario_amended :
    get_intervals aaab =
      [(Cat.chr 'a', ⟨0, 3/4, 3/8, 1/8⟩), (Cat.chr 'b', ⟨3/4, 1, 7/8, 1/24⟩)] ∧
    transform (get_intervals aaab) [Cat.chr 'a', Cat.chr 'b']
      = Except.ok [0, 0] ∧
    reverse_transform false (get_intervals aaab) [3/8, 7/8]
      = [Cat.chr 'a', Cat.chr 'b'] := by
  refine ⟨get_intervals_aaab, by rw [transform_two_categories_zeros (by decide)]; rfl, ?_⟩
  rw [get_intervals_aaab]
  have h1 : _normalize false ((3 : ℚ)/8) = 3/8 :=
    _normalize_id (by norm_num) (by norm_num)
  have h2 : _normalize false ((7 : ℚ)/8) = 7/8 :=
    _normalize_id (by norm_num) (by norm_num)
  rw [reverse_transform]
  simp only [List.map_cons, List.map_nil, h1, h2]
  rw [findCategory, findCategory]
  simp only [List.foldl_cons, List.foldl_nil]
  norm_num

/-- C2 (code evaluation at the failing input): after fitting on
`bba = ["b","b","a"]`, the first category in sort order is `"b"`, yet
`transform(["b","b","b","b"])` returns `[0,0,0,0]` instead of the claimed
`[1,1,1,1]`: the shortcut compares each value against the first interval
4-tuple (`list(self.intervals.values())[0]`), not against the first
category key. -/
theorem C2_binary_shortcut_evaluation :
    (get_intervals bba).map Prod.fst = [Cat.chr 'b', Cat.chr 'a'] ∧
    transform (get_intervals bba) [Cat.chr 'b', Cat.chr 'b', Cat.chr 'b', Cat.chr 'b']
      = Except.ok [0, 0, 0, 0] := by
  constructor
  · rw [get_intervals_keys]
    decide
  · rw [transform_two_categories_zeros (by decide)]
    rfl

/-- C3 (counterexample): after fitting on the two-category data
`["b","b","a"]`, the round trip on the observed category `"b"` does not
return `["b"]`: the shortcut encodes `"b"` as `[0]`, the value 0 lies on
the interval chain's left endpoint, which the strict membership test never
matches, so `reverse_transform` returns the missing (null) value. -/
theorem C3_roundtrip_counterexample :
    ¬ ((transform (get_intervals bba) [Cat.chr 'b']).map
        (fun out => reverse_transform false (get_intervals bba) out)
      = Except.ok [Cat.chr 'b']) := by
  have hchain := get_intervals_chain (show bba ≠ [] by decide)
  have hrev : reverse_transform false (get_intervals bba) [0] = [Cat.null] := by
    show [(findCategory (get_intervals bba) (_normalize false 0)).getD Cat.null]
        = [Cat.null]
    rw [_normalize_id (le_refl 0) (by norm_num), findCategory_chain_start hchain]
    rfl
  have hall : (transform (get_intervals bba) [Cat.chr 'b']).map
      (fun out => reverse_transform false (get_intervals bba) out)
      = Except.ok [Cat.null] := by
    rw [transform_two_categories_zeros (by decide)]
    show Except.ok (reverse_transform false (get_intervals bba) [0]) = _
    rw [hrev]
  rw [hall]
  intro hcontra
  have h2 := Except.ok.inj hcontra
  simp at h2

/-- C3 (amended): for every non-empty fit input whose fitted mapping does
not have exactly two categories, and every category observed at fit time,
with noise disabled `reverse_transform(transform([c]))` returns `[c]`,
for either clip setting. -/
theorem C3_roundtrip_amended (data : List Cat) (c : Cat) (clip : Bool)
    (h : data ≠ []) (h2 : (get_intervals data).length ≠ 2) (hc : c ∈ data) :
    (transform (get_intervals data) [c]).map
        (fun out => reverse_transform clip (get_intervals data) out)
      = Except.ok [c] := by
  obtain ⟨iv, hiv⟩ := mem_get_intervals hc
  have hchain := get_intervals_chain h
  have hb := chainFromTo_mem_bounds _ _ _ hchain (c, iv) hiv
  have hshape := get_intervals_shape hiv
  have hmlo : iv.start < iv.mean := by
    have := hshape.1
    simp only at this
    rw [this]
    have := hb.2.1
    simp only at this
    linarith
  have hmhi : iv.mean < iv.stop := by
    have := hshape.1
    simp only at this
    rw [this]
    have := hb.2.1
    simp only at this
    linarith
  have hm0 : (0 : ℚ) ≤ iv.mean := le_trans hb.1 (le_of_lt hmlo)
  have hm1 : iv.mean < 1 := lt_of_lt_of_le hmhi hb.2.2
  have hfind := find?_eq_some_of_mem_of_nodup _ c iv (get_intervals_keys_nodup data) hiv
  have hval : _get_value (get_intervals data) c = Except.ok iv.mean := by
    rw [_get_value, hfind]
  have htr : transform (get_intervals data) [c] = Except.ok [iv.mean] := by
    rw [transform.eq_def, if_neg h2, List.mapM_cons, hval, List.mapM_nil]
    rfl
  rw [htr]
  show Except.ok (reverse_transform clip (get_intervals data) [iv.mean])
      = Except.ok [c]
  rw [reverse_transform]
  simp only [List.map_cons, List.map_nil]
  rw [_normalize_id hm0 hm1,
    findCategory_some _ _ _ c iv hchain hiv hmlo hmhi]
  rfl

/-- Witness for C3 (amended) at the three-category data `["a","a","b","c"]`
and the category `"a"`. -/
theorem C3_roundtrip_amended_witness :
    (transform (get_intervals aabc) [Cat.chr 'a']).map
        (fun out => reverse_transform false (get_intervals aabc) out)
      = Except.ok [Cat.chr 'a'] :=
  C3_roundtrip_amended aabc (Cat.chr 'a') false (by decide) (by decide) (by decide)

/-- C4: for non-empty fit data the fitted intervals are listed in
descending order of fit-time frequency with ties broken by the category
value descending, the first interval starts at 0, each interval ends where
the next starts, and the interval lengths sum to 1. -/
theorem C4_partition_invariant (data : List Cat) (h : data ≠ []) :
    List.Pairwise
      (fun p q : Cat × Interval =>
        countOf data q.1 < countOf data p.1 ∨
          (countOf data q.1 = countOf data p.1 ∧ Cat.le q.1 p.1 ∧ q.1 ≠ p.1))
      (get_intervals data) ∧
    (∀ p, (get_intervals data).head? = some p → p.2.start = 0) ∧
    List.Chain' (fun p q : Cat × Interval => p.2.stop = q.2.start)
      (get_intervals data) ∧
    ((get_intervals data).map (fun p => p.2.stop - p.2.start)).sum = 1 := by
  have hchain := get_intervals_chain h
  refine ⟨get_intervals_sorted data, ?_, chainFromTo_chain' _ _ _ hchain, ?_⟩
  · intro p hp
    cases hgi : get_intervals data with
    | nil =>
      rw [hgi] at hp
      simp at hp
    | cons q rest =>
      rw [hgi] at hp hchain
      have hqp : q = p := by simpa using hp
      rw [← hqp]
      exact hchain.1
  · have hsum := chainFromTo_sum _ _ _ hchain
    simpa using hsum

/-- Witness for C4 at the concrete data `["a","a","a","b"]`. -/
theorem C4_partition_invariant_witness :
    ((get_intervals aaab).map (fun p => p.2.stop - p.2.start)).sum = 1 :=
  (C4_partition_invariant aaab (by decide)).2.2.2

/-- C5: a normalized value lying exactly on a fitted interval boundary
matches no interval, and `reverse_transform` returns it as the missing
value (pandas `NaN`, the null category) at its position rather than
raising or assigning an adjacent interval. -/
theorem C5_boundary_no_match (data : List Cat) (p : Cat × Interval) (v : ℚ)
    (clip : Bool) (h : data ≠ []) (hp : p ∈ get_intervals data)
    (hv : v = p.2.start ∨ v = p.2.stop) :
    findCategory (get_intervals data) v = none ∧
    reverse_transform clip (get_intervals data) [v] = [Cat.null] := by
  have hchain := get_intervals_chain h
  have hno := chain_boundary_no_match _ _ _ hchain ⟨p, hp, hv⟩
  have hfc : findCategory (get_intervals data) v = none := findCategory_none hno
  refine ⟨hfc, ?_⟩
  have hb := chainFromTo_mem_bounds _ _ _ hchain p hp
  have hv0 : 0 ≤ v := by
    rcases hv with h2 | h2
    · rw [h2]
      exact hb.1
    · rw [h2]
      linarith [hb.1, hb.2.1]
  have hv1 : v ≤ 1 := by
    rcases hv with h2 | h2
    · rw [h2]
      linarith [hb.2.1, hb.2.2]
    · rw [h2]
      exact hb.2.2
  have hw : _normalize clip v = v ∨ _normalize clip v = 0 := by
    rcases lt_or_eq_of_le hv1 with hlt | heq1
    · exact Or.inl (_normalize_id hv0 hlt)
    · cases clip with
      | true =>
        left
        rw [_normalize_true_eq, heq1, max_eq_right zero_le_one, min_self]
      | false =>
        right
        rw [_normalize_false_eq, heq1]
        have ht : pyTrunc (1 : ℚ) = 1 := by
          rw [pyTrunc, if_pos zero_le_one, Int.floor_one]
        rw [ht]
        norm_num
  show [(findCategory (get_intervals data) (_normalize clip v)).getD Cat.null]
      = [Cat.null]
  rcases hw with h2 | h2
  · rw [h2, hfc]
    rfl
  · rw [h2, findCategory_chain_start hchain]
    rfl

/-- Witness for C5 at `["a","a","a","b"]` with the boundary value 0.75. -/
theorem C5_boundary_no_match_witness :
    findCategory (get_intervals aaab) ((3 : ℚ)/4) = none ∧
    reverse_transform false (get_intervals aaab) [(3 : ℚ)/4] = [Cat.null] :=
  C5_boundary_no_match aaab (Cat.chr 'a', ⟨0, 3/4, 3/8, 1/8⟩) ((3 : ℚ)/4) false
    (by decide) aaab_mem_a (Or.inr rfl)

/-- C6 (counterexample): with the two-category fit `["b","b","a"]`, the
never-observed value `"c"` does not raise: `transform` silently returns
zeros for it through the shortcut comparison. -/
theorem C6_unknown_counterexample :
    Cat.chr 'c' ∉ bba ∧
    transform (get_intervals bba)
        [Cat.chr 'c', Cat.chr 'c', Cat.chr 'c', Cat.chr 'c']
      = Except.ok [0, 0, 0, 0] := by
  refine ⟨by decide, ?_⟩
  rw [transform_two_categories_zeros (by decide)]
  rfl

/-- C6 (amended): with anonymization disabled and a fitted mapping of other
than two categories, a value never observed at fit time makes `transform`
raise a lookup `KeyError` (the spec taxonomy's UnknownCategoryError); with
exactly two categories the value is instead silently encoded as 0 by the
tuple-comparison shortcut. -/
theorem C6_unknown_amended (data : List Cat) (c : Cat)
    (h2 : (get_intervals data).length ≠ 2) (hc : c ∉ data) :
    transform (get_intervals data) [c] = Except.error (PyErr.keyError c) := by
  have hfind : (get_intervals data).find? (fun p => p.1 == c) = none := by
    rw [List.find?_eq_none]
    intro p hp hbeq
    have hpc : p.1 = c := by simpa using hbeq
    exact hc (hpc ▸ get_intervals_mem_data hp)
  rw [transform.eq_def, if_neg h2, List.mapM_cons, _get_value, hfind]
  rfl

/-- Witness for C6 (amended) at `["a","a","b","c"]` and the unseen `"d"`. -/
theorem C6_unknown_amended_witness :
    transform (get_intervals aabc) [Cat.chr 'd']
      = Except.error (PyErr.keyError (Cat.chr 'd')) :=
  C6_unknown_amended aabc (Cat.chr 'd') (by decide) (by decide)

/-- C7: `_normalize` always lands in `[0, 1]`; with clip it is the clamp of
the value into `[0, 1]`, and without clip it is the absolute value of the
Python fractional part (value minus its integer part, negative results
reflected). -/
theorem C7_normalize (clip : Bool) (v : ℚ) :
    0 ≤ _normalize clip v ∧ _normalize clip v ≤ 1 ∧
    _normalize true v = min 1 (max 0 v) ∧
    _normalize false v = |v - (pyTrunc v : ℚ)| := by
  obtain ⟨h0, h1⟩ := _normalize_bounds clip v
  refine ⟨h0, h1, _normalize_true_eq v, ?_⟩
  rw [_normalize_false_eq]
  rcases lt_or_le (v - (pyTrunc v : ℚ)) 0 with h | h
  · rw [if_pos h, abs_of_neg h]
  · rw [if_neg (not_lt.mpr h), abs_of_nonneg h]

/-- C8: every fit-time category of the one-hot coder round-trips through
`transform`/`reverse_transform`; an unseen value yields an all-zero row;
and `reverse_transform` picks per row the lowest column index attaining
the maximum value and returns that column's category. -/
theorem C8_onehot (data : List Cat) (c c2 : Cat) (r : List ℚ)
    (hc : c ∈ oneHotDummies data) (hc2 : c2 ∉ oneHotDummies data) (hr : r ≠ []) :
    oneHotReverse (oneHotDummies data) (oneHotTransform (oneHotDummies data) [c])
      = [c] ∧
    oneHotTransform (oneHotDummies data) [c2]
      = [List.replicate (oneHotDummies data).length 0] ∧
    (argmaxIdx r < r.length ∧
      (∀ j, j < r.length → r.getD j 0 ≤ r.getD (argmaxIdx r) 0) ∧
      (∀ j, j < argmaxIdx r → r.getD j 0 < r.getD (argmaxIdx r) 0)) ∧
    oneHotReverse (oneHotDummies data) [r]
      = [((oneHotDummies data)[argmaxIdx r]?).getD Cat.null] :=
  ⟨oneHot_roundtrip hc, oneHotTransform_unseen hc2, argmaxIdx_spec r hr, rfl⟩

/-- Witness for C8 at `["b","b","a"]` with category `"a"`. -/
theorem C8_onehot_witness :
    oneHotReverse (oneHotDummies bba) (oneHotTransform (oneHotDummies bba) [Cat.chr 'a'])
      = [Cat.chr 'a'] :=
  (C8_onehot bba (Cat.chr 'a') (Cat.chr 'z') [1] (by decide) (by decide)
    (by decide)).1

/-- C9: with clip configured, every input strictly outside `[0, 1]` is
clamped to exactly 0 or exactly 1, both of which lie on interval
boundaries under the strict membership test, so `reverse_transform` emits
the missing (null) value for it. -/
theorem C9_clip_out_of_range (data : List Cat) (v : ℚ) (h : data ≠ [])
    (hv : v < 0 ∨ 1 < v) :
    (_normalize true v = 0 ∨ _normalize true v = 1) ∧
    reverse_transform true (get_intervals data) [v] = [Cat.null] := by
  have hchain := get_intervals_chain h
  have hn : _normalize true v = 0 ∨ _normalize true v = 1 := by
    rcases hv with h2 | h2
    · left
      rw [_normalize_true_eq, max_eq_left (le_of_lt h2), min_eq_right zero_le_one]
    · right
      rw [_normalize_true_eq,
        max_eq_right (le_trans zero_le_one (le_of_lt h2)), min_eq_left (le_of_lt h2)]
  refine ⟨hn, ?_⟩
  show [(findCategory (get_intervals data) (_normalize true v)).getD Cat.null]
      = [Cat.null]
  have hone : findCategory (get_intervals data) 1 = none := by
    apply findCategory_none
    intro p hp hmatch
    have hb := chainFromTo_mem_bounds _ _ _ hchain p hp
    linarith [hmatch.2, hb.2.2]
  rcases hn with h2 | h2
  · rw [h2, findCategory_chain_start hchain]
    rfl
  · rw [h2, hone]
    rfl

/-- Witness for C9 at `["a","a","a","b"]` with the out-of-range value 2. -/
theorem C9_clip_out_of_range_witness :
    (_normalize true 2 = 0 ∨ _normalize true 2 = 1) ∧
    reverse_transform true (get_intervals aaab) [2] = [Cat.null] :=
  C9_clip_out_of_range aaab 2 (by decide) (Or.inr (by decide))

/-- C10: the one-hot coder never treats null as a category — the fitted
dummy list excludes it and a null row one-hot encodes to all zeros — while
the categorical encoder gives null its own interval whenever null occurs
in the fit data. -/
theorem C10_onehot_null (data data2 : List Cat) (hnull : Cat.null ∈ data2) :
    Cat.null ∉ oneHotDummies data ∧
    oneHotTransform (oneHotDummies data) [Cat.null]
      = [List.replicate (oneHotDummies data).length 0] ∧
    (∃ iv, (Cat.null, iv) ∈ get_intervals data2) :=
  ⟨null_not_mem_oneHotDummies data,
   oneHotTransform_unseen (null_not_mem_oneHotDummies data),
   mem_get_intervals hnull⟩

/-- Witness for C10 at `["b","b","a"]` and `[null, "a"]`. -/
theorem C10_onehot_null_witness :
    Cat.null ∉ oneHotDummies bba ∧
    oneHotTransform (oneHotDummies bba) [Cat.null]
      = [List.replicate (oneHotDummies bba).length 0] ∧
    (∃ iv, (Cat.null, iv) ∈ get_intervals [Cat.null, Cat.chr 'a']) :=
  C10_onehot_null bba [Cat.null, Cat.chr 'a'] (by decide)

end RDT